import Mathlib

/-!
Verification of the Elevenporescena batch text-to-speech pipeline
(`src/elevenporescena.py`) against its natural-language specification.

Text is modelled as `List Char` (Python `str`), audio bytes as `List Nat`,
and the external HTTP service as an explicit function from attempt indices
to call outcomes.  All definitions are direct transcriptions of the Python
source; the theorems at the end of the file settle the specification
claims.
-/

namespace Eleven

/-- A fragment of text, as produced by the splitter (Python `str`). -/
abbrev Frag := List Char

/-- Python `str.split(sep)` for a one-character separator: splits at every
occurrence of `sep`, keeping empty pieces, so the result is always
non-empty. -/
def splitOnChar (sep : Char) : List Char → List Frag
  | [] => [[]]
  | c :: cs =>
    if c = sep then [] :: splitOnChar sep cs
    else
      match splitOnChar sep cs with
      | [] => [[c]]
      | p :: ps => (c :: p) :: ps

/-- Python `str.strip()`: remove whitespace from both ends. -/
def strip (l : List Char) : List Char :=
  ((l.dropWhile Char.isWhitespace).reverse.dropWhile Char.isWhitespace).reverse

/-- A comma or a space, the character set of Python `strip(", ")`. -/
def isCS (c : Char) : Bool := c = ',' || c = ' '

/-- Python `str.strip(", ")`: remove commas and spaces from both ends. -/
def stripCS (l : List Char) : List Char :=
  ((l.dropWhile isCS).reverse.dropWhile isCS).reverse

/-- Python `paragraph.replace('. ', '.')`: left-to-right non-overlapping
replacement of a period-space pair by a lone period. -/
def replDotSp : List Char → List Char
  | [] => []
  | [c] => [c]
  | c1 :: c2 :: r =>
    if c1 = '.' ∧ c2 = ' ' then '.' :: replDotSp r
    else c1 :: replDotSp (c2 :: r)

/-- The non-empty, whitespace-trimmed paragraphs of the input:
`[p.strip() for p in text.split('\n') if p.strip()]`. -/
def paragraphsOf (text : List Char) : List Frag :=
  ((splitOnChar '\n' text).map strip).filter (· ≠ [])

/-- The sentence list built for an oversized paragraph:
`[s.strip() + '.' for s in paragraph.replace('. ', '.').split('.') if s.strip()]`. -/
def sentencesOf (p : Frag) : List Frag :=
  ((((splitOnChar '.' (replDotSp p)).map strip).filter (· ≠ [])).map (· ++ ['.']))

/-- One iteration of the comma-packing loop
(`for part in parts: ...`) over the state `(fragments, current_part)`. -/
def commaStep (maxc : Nat) (st : List Frag × Frag) (p0 : Frag) : List Frag × Frag :=
  let p := strip p0
  if st.2.length + p.length + 2 ≤ maxc then
    (st.1, stripCS (st.2 ++ ',' :: ' ' :: p))
  else
    (st.1 ++ (if st.2 = [] then [] else [st.2 ++ ['.']]), p)

/-- The flush after the comma-packing loop
(`if current_part: fragments.append(current_part + ".")`). -/
def commaFinish (st : List Frag × Frag) : List Frag :=
  st.1 ++ (if st.2 = [] then [] else [st.2 ++ ['.']])

/-- One iteration of the sentence loop (`for sentence in sentences: ...`)
over the state `(fragments, current_fragment)`. -/
def sentenceStep (maxc : Nat) (st : List Frag × Frag) (s : Frag) : List Frag × Frag :=
  if maxc < s.length then
    (commaFinish ((splitOnChar ',' s).foldl (commaStep maxc) (st.1, [])), st.2)
  else if maxc < (st.2 ++ s).length then
    ((if st.2 = [] then st.1 else st.1 ++ [strip st.2]), s)
  else
    (st.1, strip (st.2 ++ ' ' :: s))

/-- One iteration of the paragraph loop (`for paragraph in paragraphs: ...`),
including the end-of-paragraph flush of `current_fragment`. -/
def paraStep (maxc : Nat) (st : List Frag × Frag) (p : Frag) : List Frag × Frag :=
  if p.length ≤ maxc then
    (st.1 ++ [p], st.2)
  else
    let st' := (sentencesOf p).foldl (sentenceStep maxc) st
    if st'.2 = [] then st' else (st'.1 ++ [st'.2], [])

/-- `split_text_for_tts(text, max_chars)`: divide the text into fragments
respecting punctuation (direct transcription of the Python function). -/
def split_text_for_tts (text : List Char) (maxc : Nat) : List Frag :=
  let st := (paragraphsOf text).foldl (paraStep maxc) ([], [])
  if st.2 = [] then st.1 else st.1 ++ [st.2]

/-! ### Word extraction

To compare fragment content with the original text we extract the sequence
of words: maximal runs of characters other than whitespace and the
punctuation the splitter manipulates (periods and commas). -/

/-- A separator for word extraction: whitespace, period or comma. -/
def isSep (c : Char) : Bool := c.isWhitespace || c = '.' || c = ','

/-- Emit the pending (reversed) word, if non-empty. -/
def flushW (acc : List Char) : List Frag :=
  if acc = [] then [] else [acc.reverse]

/-- Word extraction with an accumulator for the word in progress. -/
def wordsAux : List Char → List Char → List Frag
  | [], acc => flushW acc
  | c :: cs, acc =>
    if isSep c then flushW acc ++ wordsAux cs [] else wordsAux cs (c :: acc)

/-- The word sequence of a text: maximal runs of non-separator characters. -/
def wordsOf (l : List Char) : List Frag := wordsAux l []

/-- Concatenation of the word sequences of a list of fragments. -/
def wordsCat : List Frag → List Frag
  | [] => []
  | f :: fs => wordsOf f ++ wordsCat fs

/-- `catMap f l` concatenates `f` applied to each element (list monad bind). -/
def catMap (f : α → List β) : List α → List β
  | [] => []
  | a :: as => f a ++ catMap f as

/-- Joining pieces back with a single separator character between them. -/
def joinSep (sep : Char) : List Frag → List Char
  | [] => []
  | [p] => p
  | p :: ps => p ++ sep :: joinSep sep ps

/-- The comma-level pieces of every oversized sentence of every oversized
paragraph — the "atomic clauses" the splitter can no longer subdivide. -/
def clauseParts (text : List Char) (maxc : Nat) : List Frag :=
  catMap (fun p =>
      if p.length ≤ maxc then []
      else catMap (fun s => if maxc < s.length then splitOnChar ',' s else [])
        (sentencesOf p))
    (paragraphsOf text)

/-- Every "atomic piece" the splitter ever works with on a given text:
its paragraphs, their sentences, and the stripped comma-clauses of those
sentences. -/
def atomicPieces (text : List Char) : List Frag :=
  catMap (fun p =>
      p :: catMap (fun s => s :: (splitOnChar ',' s).map strip) (sentencesOf p))
    (paragraphsOf text)

/-! ### Synthesis client (`generate_audio_with_retries`)

The external HTTP service is abstracted as a function from the attempt
index to the outcome of `requests.post`: a response with a status code and
body bytes, or a raised exception.  Audio bytes are lists of naturals. -/

/-- Outcome of one call to the synthesis endpoint. -/
inductive CallOutcome where
  | resp (code : Nat) (content : List Nat)
  | exn
deriving DecidableEq

/-- Whether a call outcome is a failure (non-200 status or an exception). -/
def isFailB : CallOutcome → Bool
  | .resp code _ => code ≠ 200
  | .exn => true

/-- One generated audio file, as appended to `results` by the Python code. -/
structure AudioResult where
  content : List Nat
  filename : List Char
  text : List Char
  scene : Nat
deriving DecidableEq

/-- The take letters: `letters = ['a', 'b', 'c']`. -/
def letters : List Char := ['a', 'b', 'c']

/-- `f"escena{scene_number}_parte{fragment_number}{letters[attempt]}.mp3"`. -/
def filenameFor (scene frg attempt : Nat) : List Char :=
  "escena".toList ++ Nat.toDigits 10 scene ++ "_parte".toList ++
    Nat.toDigits 10 frg ++ [letters.getD attempt '?'] ++ ".mp3".toList

/-- The take letter of an audio file, read as the zip builder reads it:
`audio['filename'][-5]`. -/
def takeLetterOf (r : AudioResult) : Char :=
  r.filename.getD (r.filename.length - 5) '?'

/-- Observable events of one run of the synthesis client: an audio result
appended, a warning shown for a non-200 status, an error shown for a
raised exception, or a pacing sleep.  The sleep duration is recorded in
tenths of a time unit, so `time.sleep(5.5)` is `sleep 55`. -/
inductive Ev where
  | emit (r : AudioResult)
  | warn (attempt code : Nat)
  | err (attempt : Nat)
  | sleep (tenths : Nat)
deriving DecidableEq

/-- The events of a single attempt of the retry loop: on a 200 response the
result is recorded and a 5.5-unit sleep follows; a non-200 status shows a
warning naming the 1-based attempt; an exception shows an error. -/
def attemptEvents (svc : Nat → CallOutcome) (text : List Char)
    (scene frg attempt : Nat) : List Ev :=
  match svc attempt with
  | .resp code content =>
    if code = 200 then
      [.emit ⟨content, filenameFor scene frg attempt, text, scene⟩, .sleep 55]
    else [.warn (attempt + 1) code]
  | .exn => [.err (attempt + 1)]

/-- The full event sequence of `generate_audio_with_retries`:
`for attempt in range(retries + 1): ...`. -/
def generate_events (svc : Nat → CallOutcome) (text : List Char)
    (scene frg retries : Nat) : List Ev :=
  (List.range (retries + 1)).foldl
    (fun acc a => acc ++ attemptEvents svc text scene frg a) []

/-- The audio result of the event, if it is one. -/
def emitOf : Ev → Option AudioResult
  | .emit r => some r
  | _ => none

/-- `generate_audio_with_retries(...)`: the list `results` returned by the
Python function — the audio results among the run's events, in order. -/
def generate_audio_with_retries (svc : Nat → CallOutcome) (text : List Char)
    (scene frg retries : Nat) : List AudioResult :=
  (generate_events svc text scene frg retries).filterMap emitOf

/-- The audio result a given attempt contributes, if it succeeds. -/
def successArtifact (svc : Nat → CallOutcome) (text : List Char)
    (scene frg attempt : Nat) : Option AudioResult :=
  match svc attempt with
  | .resp code content =>
    if code = 200 then
      some ⟨content, filenameFor scene frg attempt, text, scene⟩
    else none
  | .exn => none

/-! ### The batch loop of `main`

`main` iterates the spreadsheet rows (scene numbers starting at 1), splits
each scene text, and calls the synthesis client on each fragment
(fragment numbers starting at 1), accumulating `all_audio_files`.
The service is abstracted per scene, fragment and attempt. -/

/-- The fragment loop `for i, fragment in enumerate(fragments, 1): ...`. -/
def runFrags (svcU : Nat → Nat → CallOutcome) (scene : Nat) :
    Nat → List Frag → List AudioResult
  | _, [] => []
  | j, f :: rest =>
    generate_audio_with_retries (svcU j) f scene j 2 ++ runFrags svcU scene (j + 1) rest

/-- The scene loop `for index, row in df.iterrows(): ...` with
`scene_number = index + 1`; `n` is the number of the next scene. -/
def runScenes (svc : Nat → Nat → Nat → CallOutcome) (maxc : Nat) :
    Nat → List (List Char) → List AudioResult
  | _, [] => []
  | n, s :: rest =>
    runFrags (svc n) n 1 (split_text_for_tts s maxc) ++ runScenes svc maxc (n + 1) rest

/-! ### Voice listing (`get_available_voices`) and the credential gate -/

/-- Outcome of the `GET /v1/voices` call: a response carrying a status code
and, when the body parses as `{"voices": [{name, voice_id}, ...]}`, that
list; `none` models a body on which `response.json()["voices"]` raises. -/
inductive VoicesOutcome where
  | resp (code : Nat) (body : Option (List (List Char × List Char)))
  | exn
deriving DecidableEq

/-- Whether the voice-listing call failed (non-200 status, malformed body,
or a raised exception). -/
def isVoicesFailB : VoicesOutcome → Bool
  | .resp code body => code ≠ 200 || body.isNone
  | .exn => true

/-- Python dict insertion: replace the value of an existing key, else
append the pair at the end. -/
def dictInsert (d : List (List Char × List Char)) (k v : List Char) :
    List (List Char × List Char) :=
  match d with
  | [] => [(k, v)]
  | (k', v') :: rest =>
    if k' = k then (k', v) :: rest else (k', v') :: dictInsert rest k v

/-- `get_available_voices(api_key)`: the name → voice-id mapping, or the
empty mapping on any failure. -/
def get_available_voices (o : VoicesOutcome) : List (List Char × List Char) :=
  match o with
  | .resp code body =>
    if code = 200 then
      match body with
      | some voices => voices.foldl (fun d nv => dictInsert d nv.1 nv.2) []
      | none => []
    else []
  | .exn => []

/-- What `main` does right after loading the voice list with a non-empty
API key: offer the voice selector, or report the bad credential and
return before any synthesis is started. -/
inductive MainVoiceStep where
  | selectVoice (voices : List (List Char × List Char))
  | errorBadKey
deriving DecidableEq

/-- The credential gate in `main`: `if voices: ... else: st.sidebar.error(...); return`. -/
def main_voice_step (o : VoicesOutcome) : MainVoiceStep :=
  match get_available_voices o with
  | [] => .errorBadKey
  | vs => .selectVoice vs

/-! ### Archive builder (`create_zip_files_by_version`) -/

/-- One entry of a zip archive: its path inside the archive and its bytes.
The archive itself is modelled as its ordered entry list. -/
structure Entry where
  path : List Char
  content : List Nat
deriving DecidableEq

/-- Insertion-ordered grouping by scene number (a Python dict keyed by
`audio['scene']` whose values are appended in arrival order). -/
def addToSceneGroup (gs : List (Nat × List AudioResult)) (a : AudioResult) :
    List (Nat × List AudioResult) :=
  match gs with
  | [] => [(a.scene, [a])]
  | (s, fs) :: rest =>
    if s = a.scene then (s, fs ++ [a]) :: rest else (s, fs) :: addToSceneGroup rest a

/-- `files_by_scene` for one take's files, in dict insertion order. -/
def groupByScene (files : List AudioResult) : List (Nat × List AudioResult) :=
  files.foldl addToSceneGroup []

/-- The entry list of one take's archive: one folder per scene
(`f"escena_{scene_num}"`), each file at `f"{scene_folder}/{filename}"`. -/
def buildZip (files : List AudioResult) : List Entry :=
  catMap (fun g =>
      g.2.map fun a =>
        ⟨"escena_".toList ++ Nat.toDigits 10 g.1 ++ '/' :: a.filename, a.content⟩)
    (groupByScene files)

/-- `create_zip_files_by_version(audio_files)`: partition the files by the
take letter `audio['filename'][-5]` and build one archive per letter, in
the fixed key order a, b, c.  A file whose letter is none of a, b, c makes
the Python raise `KeyError`; that is modelled as `none`. -/
def create_zip_files_by_version (audio_files : List AudioResult) :
    Option (List (Char × List Entry)) :=
  if audio_files.all (fun a => letters.contains (takeLetterOf a)) then
    some [('a', buildZip (audio_files.filter (fun a => takeLetterOf a == 'a'))),
          ('b', buildZip (audio_files.filter (fun a => takeLetterOf a == 'b'))),
          ('c', buildZip (audio_files.filter (fun a => takeLetterOf a == 'c')))]
  else none

/-! ### Session state (`st.session_state.current_generation`) -/

/-- The session generation state: the three archives, the generation
timestamp, and the completion flag. -/
structure GenState where
  zip_contents : Option (List (Char × List Entry))
  timestamp : Option (List Char)
  files_generated : Bool
deriving DecidableEq

/-- The initial session state installed when the key is absent. -/
def init_generation : GenState :=
  { zip_contents := none, timestamp := none, files_generated := false }

/-- The end of one processing run: `if all_audio_files:` overwrite the
state with the freshly built archives, the current timestamp and
`files_generated = True`; an empty batch, or an exception while building
the archives (caught by the surrounding `except`), leaves the state
unchanged. -/
def finish_batch (st : GenState) (batch : List AudioResult) (ts : List Char) : GenState :=
  if batch = [] then st
  else
    match create_zip_files_by_version batch with
    | some z => { zip_contents := some z, timestamp := some ts, files_generated := true }
    | none => st

/-- The session states reachable in the app: the initial state, followed by
any number of completed processing runs of the batch pipeline. -/
inductive Reachable : GenState → Prop
  | init : Reachable init_generation
  | step (st : GenState) (svc : Nat → Nat → Nat → CallOutcome) (maxc : Nat)
      (scenes : List (List Char)) (ts : List Char) :
      Reachable st → Reachable (finish_batch st (runScenes svc maxc 1 scenes) ts)

/-! ### Concrete fixtures used to evaluate the theorems -/

/-- A concrete service that succeeds on attempts 1 and 3 (indices 0 and 2)
and fails attempt 2 (index 1) with a 503 status. -/
def svcAC : Nat → CallOutcome := fun a =>
  if a = 0 then .resp 200 [1] else if a = 1 then .resp 503 [] else .resp 200 [3]

/-- A concrete service whose every call succeeds, with body bytes
recording scene, fragment and attempt. -/
def svcOK : Nat → Nat → Nat → CallOutcome := fun n j a => .resp 200 [n, j, a]

/-! ## Lemmas about word extraction -/

theorem flushW_nil : flushW [] = [] := rfl

theorem wordsAux_sep_cons {c : Char} (hc : isSep c = true) (l : List Char)
    (acc : List Char) : wordsAux (c :: l) acc = flushW acc ++ wordsAux l [] := by
  simp [wordsAux, hc]

theorem wordsAux_allSep {t : List Char} (ht : ∀ c ∈ t, isSep c = true) :
    ∀ acc, wordsAux t acc = flushW acc := by
  induction t with
  | nil => intro acc; rfl
  | cons c cs ih =>
    intro acc
    rw [wordsAux_sep_cons (ht c (by simp)) cs acc,
      ih (fun x hx => ht x (by simp [hx])) [], flushW_nil, List.append_nil]

theorem wordsAux_append_sep {c : Char} (hc : isSep c = true) :
    ∀ (a : List Char) (acc b : List Char),
      wordsAux (a ++ c :: b) acc = wordsAux (a ++ [c]) acc ++ wordsAux b [] := by
  intro a
  induction a with
  | nil =>
    intro acc b
    simp only [List.nil_append]
    rw [wordsAux_sep_cons hc b acc, wordsAux_sep_cons hc [] acc]
    simp [wordsAux, flushW_nil]
  | cons d ds ih =>
    intro acc b
    by_cases hd : isSep d = true
    · simp only [List.cons_append]
      rw [wordsAux_sep_cons hd _ acc, wordsAux_sep_cons hd _ acc, ih, List.append_assoc]
    · simp only [List.cons_append, wordsAux, hd, Bool.false_eq_true, if_false]
      exact ih _ _

theorem wordsAux_append_last_sep {c : Char} (hc : isSep c = true) :
    ∀ (a : List Char) (acc : List Char), wordsAux (a ++ [c]) acc = wordsAux a acc := by
  intro a
  induction a with
  | nil =>
    intro acc
    simp only [List.nil_append]
    rw [wordsAux_sep_cons hc [] acc]
    simp [wordsAux, flushW_nil]
  | cons d ds ih =>
    intro acc
    by_cases hd : isSep d = true
    · simp only [List.cons_append]
      rw [wordsAux_sep_cons hd _ acc, wordsAux_sep_cons hd _ acc, ih]
    · simp only [List.cons_append, wordsAux, hd, Bool.false_eq_true, if_false]
      exact ih _

theorem wordsOf_append_sep {c : Char} (hc : isSep c = true) (a b : List Char) :
    wordsOf (a ++ c :: b) = wordsOf a ++ wordsOf b := by
  unfold wordsOf
  rw [wordsAux_append_sep hc a [] b, wordsAux_append_last_sep hc a []]

theorem wordsOf_append_last_sep {c : Char} (hc : isSep c = true) (a : List Char) :
    wordsOf (a ++ [c]) = wordsOf a := by
  unfold wordsOf; rw [wordsAux_append_last_sep hc a []]

theorem wordsAux_append_allSep {t : List Char} (ht : ∀ c ∈ t, isSep c = true) :
    ∀ (l : List Char) (acc : List Char), wordsAux (l ++ t) acc = wordsAux l acc := by
  intro l
  induction l with
  | nil =>
    intro acc
    simpa [wordsAux] using wordsAux_allSep ht acc
  | cons d ds ih =>
    intro acc
    by_cases hd : isSep d = true
    · simp only [List.cons_append]
      rw [wordsAux_sep_cons hd _ acc, wordsAux_sep_cons hd _ acc, ih]
    · simp only [List.cons_append, wordsAux, hd, Bool.false_eq_true, if_false]
      exact ih _

theorem wordsOf_dropWhile {p : Char → Bool} (hp : ∀ c, p c = true → isSep c = true)
    (l : List Char) : wordsOf (l.dropWhile p) = wordsOf l := by
  induction l with
  | nil => rfl
  | cons c cs ih =>
    by_cases hc : p c = true
    · rw [List.dropWhile_cons_of_pos hc, ih]
      unfold wordsOf
      rw [wordsAux_sep_cons (hp c hc) cs [], flushW_nil, List.nil_append]
    · rw [List.dropWhile_cons_of_neg hc]

theorem wordsOf_dropAround {p : Char → Bool} (hp : ∀ c, p c = true → isSep c = true)
    (l : List Char) :
    wordsOf (((l.dropWhile p).reverse.dropWhile p).reverse) = wordsOf l := by
  rw [← wordsOf_dropWhile hp l]
  set d := l.dropWhile p with hd
  have hsplit : d = ((d.reverse.dropWhile p).reverse) ++ ((d.reverse.takeWhile p).reverse) := by
    conv_lhs => rw [← List.reverse_reverse d,
      ← List.takeWhile_append_dropWhile p d.reverse]
    rw [List.reverse_append]
  have ht : ∀ c ∈ (d.reverse.takeWhile p).reverse, isSep c = true := by
    intro c hc
    exact hp c (List.mem_takeWhile_imp (List.mem_reverse.mp hc))
  conv_rhs => rw [hsplit]
  unfold wordsOf
  rw [wordsAux_append_allSep ht]

theorem wordsOf_strip (l : List Char) : wordsOf (strip l) = wordsOf l :=
  wordsOf_dropAround (fun c hc => by simp [isSep, hc]) l

theorem wordsOf_stripCS (l : List Char) : wordsOf (stripCS l) = wordsOf l := by
  refine wordsOf_dropAround (fun c hc => ?_) l
  rcases Bool.or_eq_true_iff.mp hc with h | h
  · simp [isSep, decide_eq_true_eq.mp h]
  · simp [isSep, decide_eq_true_eq.mp h]

theorem wordsAux_replDotSp : ∀ (l : List Char) (acc : List Char),
    wordsAux (replDotSp l) acc = wordsAux l acc := by
  intro l
  induction l using replDotSp.induct with
  | case1 => intro acc; rfl
  | case2 c => intro acc; rfl
  | case3 c1 c2 r h ih =>
    obtain ⟨h1, h2⟩ := h
    subst h1; subst h2
    intro acc
    rw [replDotSp, if_pos ⟨rfl, rfl⟩]
    have hdot : isSep '.' = true := by simp [isSep]
    have hsp : isSep ' ' = true := by simp [isSep]
    rw [wordsAux_sep_cons hdot _ acc, wordsAux_sep_cons hdot _ acc,
      wordsAux_sep_cons hsp _ [], flushW_nil, List.nil_append, ih]
  | case4 c1 c2 r h ih =>
    intro acc
    rw [replDotSp, if_neg h]
    by_cases hc : isSep c1 = true
    · rw [wordsAux_sep_cons hc _ acc, wordsAux_sep_cons hc _ acc, ih]
    · simp only [wordsAux, hc, Bool.false_eq_true, if_false, ih]

theorem wordsOf_replDotSp (l : List Char) : wordsOf (replDotSp l) = wordsOf l :=
  wordsAux_replDotSp l []

/-! ## Lemmas about splitting and joining -/

theorem splitOnChar_ne_nil (sep : Char) (l : List Char) : splitOnChar sep l ≠ [] := by
  cases l with
  | nil => simp [splitOnChar]
  | cons c cs =>
    by_cases hc : c = sep
    · simp [splitOnChar, hc]
    · simp only [splitOnChar, hc, if_false]
      cases splitOnChar sep cs <;> simp

theorem joinSep_cons (sep : Char) (p : Frag) {ps : List Frag} (h : ps ≠ []) :
    joinSep sep (p :: ps) = p ++ sep :: joinSep sep ps := by
  cases ps with
  | nil => exact absurd rfl h
  | cons q qs => rfl

theorem joinSep_splitOnChar (sep : Char) : ∀ l, joinSep sep (splitOnChar sep l) = l := by
  intro l
  induction l with
  | nil => rfl
  | cons c cs ih =>
    by_cases hc : c = sep
    · subst hc
      have h1 : splitOnChar c (c :: cs) = [] :: splitOnChar c cs := by
        simp [splitOnChar]
      rw [h1, joinSep_cons c [] (splitOnChar_ne_nil c cs), List.nil_append, ih]
    · simp only [splitOnChar, hc, if_false]
      cases h : splitOnChar sep cs with
      | nil => exact absurd h (splitOnChar_ne_nil sep cs)
      | cons p ps =>
        rw [h] at ih
        cases ps with
        | nil => simpa [joinSep] using ih
        | cons q qs =>
          rw [joinSep_cons sep (c :: p) (by simp), List.cons_append]
          rw [joinSep_cons sep p (by simp)] at ih
          rw [ih]

theorem wordsOf_joinSep {sep : Char} (hsep : isSep sep = true) :
    ∀ ps, wordsOf (joinSep sep ps) = wordsCat ps := by
  intro ps
  induction ps with
  | nil => rfl
  | cons p ps ih =>
    cases ps with
    | nil => simp [joinSep, wordsCat, wordsOf, wordsAux, flushW]
    | cons q qs =>
      rw [joinSep_cons sep p (by simp), wordsOf_append_sep hsep, ih]
      simp [wordsCat]

theorem wordsCat_splitOnChar {sep : Char} (hsep : isSep sep = true) (l : List Char) :
    wordsCat (splitOnChar sep l) = wordsOf l := by
  conv_rhs => rw [← joinSep_splitOnChar sep l]
  rw [wordsOf_joinSep hsep]

theorem wordsCat_append (a b : List Frag) : wordsCat (a ++ b) = wordsCat a ++ wordsCat b := by
  induction a with
  | nil => rfl
  | cons f fs ih => simp [wordsCat, ih]

theorem wordsCat_map_strip (ps : List Frag) : wordsCat (ps.map strip) = wordsCat ps := by
  induction ps with
  | nil => rfl
  | cons p ps ih => simp [wordsCat, ih, wordsOf_strip]

theorem wordsCat_filter_ne_nil (ps : List Frag) :
    wordsCat (ps.filter (· ≠ [])) = wordsCat ps := by
  induction ps with
  | nil => rfl
  | cons p ps ih =>
    rw [List.filter_cons]
    by_cases hp : p = []
    · subst hp
      rw [if_neg (by simp), ih]
      simp [wordsCat, wordsOf, wordsAux, flushW]
    · rw [if_pos (by simp [hp])]
      simp only [wordsCat]
      rw [ih]

theorem wordsCat_map_dot (ps : List Frag) :
    wordsCat (ps.map (· ++ ['.'])) = wordsCat ps := by
  induction ps with
  | nil => rfl
  | cons p ps ih =>
    simp only [List.map_cons, wordsCat, ih]
    rw [wordsOf_append_last_sep (by simp [isSep]) p]

theorem wordsCat_sentencesOf (p : Frag) : wordsCat (sentencesOf p) = wordsOf p := by
  unfold sentencesOf
  rw [wordsCat_map_dot, wordsCat_filter_ne_nil, wordsCat_map_strip,
    wordsCat_splitOnChar (by simp [isSep]), wordsOf_replDotSp]

theorem wordsCat_paragraphsOf (text : List Char) :
    wordsCat (paragraphsOf text) = wordsOf text := by
  unfold paragraphsOf
  rw [wordsCat_filter_ne_nil, wordsCat_map_strip,
    wordsCat_splitOnChar (by simp [isSep])]

/-! ## Length and membership helpers -/

theorem length_dropWhile_le (p : α → Bool) (l : List α) :
    (l.dropWhile p).length ≤ l.length := by
  induction l with
  | nil => simp
  | cons a as ih =>
    by_cases ha : p a = true
    · rw [List.dropWhile_cons_of_pos ha]
      exact Nat.le_trans ih (Nat.le_succ _)
    · rw [List.dropWhile_cons_of_neg ha]

theorem strip_length_le (l : List Char) : (strip l).length ≤ l.length := by
  unfold strip
  rw [List.length_reverse]
  calc ((l.dropWhile Char.isWhitespace).reverse.dropWhile Char.isWhitespace).length
      ≤ (l.dropWhile Char.isWhitespace).reverse.length := length_dropWhile_le _ _
    _ = (l.dropWhile Char.isWhitespace).length := List.length_reverse _
    _ ≤ l.length := length_dropWhile_le _ _

theorem stripCS_length_le (l : List Char) : (stripCS l).length ≤ l.length := by
  unfold stripCS
  rw [List.length_reverse]
  calc ((l.dropWhile isCS).reverse.dropWhile isCS).length
      ≤ (l.dropWhile isCS).reverse.length := length_dropWhile_le _ _
    _ = (l.dropWhile isCS).length := List.length_reverse _
    _ ≤ l.length := length_dropWhile_le _ _

theorem mem_catMap {f : α → List β} {b : β} :
    ∀ {l : List α}, b ∈ catMap f l ↔ ∃ a ∈ l, b ∈ f a := by
  intro l
  induction l with
  | nil => simp [catMap]
  | cons a as ih => simp [catMap, ih, List.mem_append]

/-! ## The sentence and paragraph folds preserve the word sequence
(provided the comma branch is never taken) -/

theorem sentenceFold_words (maxc : Nat) :
    ∀ (sentences frags : List Frag) (cf : Frag),
      (∀ s ∈ sentences, s.length ≤ maxc) →
      wordsCat (sentences.foldl (sentenceStep maxc) (frags, cf)).1 ++
          wordsOf (sentences.foldl (sentenceStep maxc) (frags, cf)).2 =
        wordsCat frags ++ (wordsOf cf ++ wordsCat sentences) := by
  intro sentences
  induction sentences with
  | nil => intro frags cf _; simp [wordsCat]
  | cons s ss ih =>
    intro frags cf h
    have hs : s.length ≤ maxc := h s (by simp)
    have hss : ∀ x ∈ ss, x.length ≤ maxc := fun x hx => h x (by simp [hx])
    rw [List.foldl_cons]
    by_cases hover : maxc < (cf ++ s).length
    · have hstep : sentenceStep maxc (frags, cf) s =
          ((if cf = [] then frags else frags ++ [strip cf]), s) := by
        unfold sentenceStep
        rw [if_neg (by omega), if_pos hover]
      rw [hstep, ih _ _ hss]
      by_cases hcf : cf = []
      · subst hcf
        simp [wordsCat, wordsOf, wordsAux, flushW]
      · rw [if_neg hcf, wordsCat_append]
        simp [wordsCat, wordsOf_strip]
    · have hstep : sentenceStep maxc (frags, cf) s =
          (frags, strip (cf ++ ' ' :: s)) := by
        unfold sentenceStep
        rw [if_neg (by omega), if_neg hover]
      rw [hstep, ih _ _ hss, wordsOf_strip,
        wordsOf_append_sep (by simp [isSep]) cf s]
      simp [wordsCat]

theorem wordsOf_nil : wordsOf [] = [] := rfl

theorem paraStep_long (maxc : Nat) (frags : List Frag) (p : Frag)
    (hshort : ¬ p.length ≤ maxc) (hsent : ∀ s ∈ sentencesOf p, s.length ≤ maxc) :
    (paraStep maxc (frags, []) p).2 = [] ∧
      wordsCat (paraStep maxc (frags, []) p).1 = wordsCat frags ++ wordsOf p := by
  have hw := sentenceFold_words maxc (sentencesOf p) frags [] hsent
  rw [wordsOf_nil, List.nil_append] at hw
  rw [← wordsCat_sentencesOf p]
  simp only [paraStep, if_neg hshort]
  by_cases h2 : ((sentencesOf p).foldl (sentenceStep maxc) (frags, [])).2 = []
  · rw [if_pos h2]
    refine ⟨h2, ?_⟩
    rw [h2, wordsOf_nil, List.append_nil] at hw
    exact hw
  · rw [if_neg h2]
    refine ⟨rfl, ?_⟩
    rw [wordsCat_append]
    simpa [wordsCat] using hw

theorem paraFold_words (maxc : Nat) :
    ∀ (paras frags : List Frag),
      (∀ p ∈ paras, maxc < p.length → ∀ s ∈ sentencesOf p, s.length ≤ maxc) →
      (paras.foldl (paraStep maxc) (frags, [])).2 = [] ∧
        wordsCat (paras.foldl (paraStep maxc) (frags, [])).1 =
          wordsCat frags ++ wordsCat paras := by
  intro paras
  induction paras with
  | nil => intro frags _; simp [wordsCat]
  | cons p ps ih =>
    intro frags h
    have hp := h p (by simp)
    have hps : ∀ x ∈ ps, maxc < x.length → ∀ s ∈ sentencesOf x, s.length ≤ maxc :=
      fun x hx => h x (by simp [hx])
    rw [List.foldl_cons]
    by_cases hshort : p.length ≤ maxc
    · have hstep : paraStep maxc (frags, []) p = (frags ++ [p], []) := by
        simp only [paraStep, if_pos hshort]
      rw [hstep]
      obtain ⟨h1, h2⟩ := ih (frags ++ [p]) hps
      refine ⟨h1, ?_⟩
      rw [h2, wordsCat_append]
      simp [wordsCat]
    · obtain ⟨hz, hwc⟩ := paraStep_long maxc frags p hshort (hp (by omega))
      have heta : paraStep maxc (frags, []) p =
          ((paraStep maxc (frags, []) p).1, (paraStep maxc (frags, []) p).2) := rfl
      rw [hz] at heta
      rw [heta]
      obtain ⟨h1, h2⟩ := ih (paraStep maxc (frags, []) p).1 hps
      refine ⟨h1, ?_⟩
      rw [h2, hwc, List.append_assoc]
      simp [wordsCat]

/-! ## Length bounds for the splitter (towards claim C1) -/

theorem commaFold_bound (maxc : Nat) (S : List Frag) :
    ∀ (parts frags : List Frag) (cur : Frag),
      (∀ p ∈ parts, p ∈ S) →
      (∀ f ∈ frags, f.length ≤ maxc + 1 ∨ ∃ p ∈ S, f = strip p ++ ['.']) →
      (cur.length ≤ maxc ∨ ∃ p ∈ S, cur = strip p) →
      (∀ f ∈ (parts.foldl (commaStep maxc) (frags, cur)).1,
          f.length ≤ maxc + 1 ∨ ∃ p ∈ S, f = strip p ++ ['.']) ∧
        ((parts.foldl (commaStep maxc) (frags, cur)).2.length ≤ maxc ∨
          ∃ p ∈ S, (parts.foldl (commaStep maxc) (frags, cur)).2 = strip p) := by
  intro parts
  induction parts with
  | nil => intro frags cur _ hf hc; exact ⟨hf, hc⟩
  | cons p0 ps ih =>
    intro frags cur hS hf hc
    have hS0 : p0 ∈ S := hS p0 (by simp)
    have hSs : ∀ q ∈ ps, q ∈ S := fun q hq => hS q (by simp [hq])
    rw [List.foldl_cons]
    by_cases hjoin : cur.length + (strip p0).length + 2 ≤ maxc
    · have hstep : commaStep maxc (frags, cur) p0 =
          (frags, stripCS (cur ++ ',' :: ' ' :: strip p0)) := by
        simp only [commaStep, if_pos hjoin]
      rw [hstep]
      refine ih frags _ hSs hf (Or.inl ?_)
      have h1 := stripCS_length_le (cur ++ ',' :: ' ' :: strip p0)
      simp only [List.length_append, List.length_cons] at h1
      omega
    · have hstep : commaStep maxc (frags, cur) p0 =
          (frags ++ (if cur = [] then [] else [cur ++ ['.']]), strip p0) := by
        simp only [commaStep, if_neg hjoin]
      rw [hstep]
      refine ih _ _ hSs ?_ (Or.inr ⟨p0, hS0, rfl⟩)
      intro f hfm
      rcases List.mem_append.mp hfm with h | h
      · exact hf f h
      · by_cases hcur : cur = []
        · rw [if_pos hcur] at h; simp at h
        · rw [if_neg hcur] at h
          simp only [List.mem_singleton] at h
          subst h
          rcases hc with hlen | ⟨p, hpS, hpe⟩
          · refine Or.inl ?_
            simp only [List.length_append, List.length_cons, List.length_nil]
            omega
          · exact Or.inr ⟨p, hpS, by rw [hpe]⟩

theorem sentenceFold_bound (maxc : Nat) (S : List Frag) :
    ∀ (sentences frags : List Frag) (cf : Frag),
      (∀ s ∈ sentences, maxc < s.length → ∀ q ∈ splitOnChar ',' s, q ∈ S) →
      (∀ f ∈ frags, f.length ≤ maxc + 1 ∨ ∃ p ∈ S, f = strip p ++ ['.']) →
      cf.length ≤ maxc + 1 →
      (∀ f ∈ (sentences.foldl (sentenceStep maxc) (frags, cf)).1,
          f.length ≤ maxc + 1 ∨ ∃ p ∈ S, f = strip p ++ ['.']) ∧
        (sentences.foldl (sentenceStep maxc) (frags, cf)).2.length ≤ maxc + 1 := by
  intro sentences
  induction sentences with
  | nil => intro frags cf _ hf hc; exact ⟨hf, hc⟩
  | cons s ss ih =>
    intro frags cf hS hf hc
    have hSs : ∀ x ∈ ss, maxc < x.length → ∀ q ∈ splitOnChar ',' x, q ∈ S :=
      fun x hx => hS x (by simp [hx])
    rw [List.foldl_cons]
    by_cases hlong : maxc < s.length
    · have hstep : sentenceStep maxc (frags, cf) s =
          (commaFinish ((splitOnChar ',' s).foldl (commaStep maxc) (frags, [])), cf) := by
        simp only [sentenceStep, if_pos hlong]
      rw [hstep]
      obtain ⟨hf', hc'⟩ := commaFold_bound maxc S (splitOnChar ',' s) frags []
        (hS s (by simp) hlong) hf (Or.inl (by simp))
      refine ih _ _ hSs ?_ hc
      intro f hfm
      unfold commaFinish at hfm
      rcases List.mem_append.mp hfm with h | h
      · exact hf' f h
      · by_cases hcur : ((splitOnChar ',' s).foldl (commaStep maxc) (frags, [])).2 = []
        · rw [if_pos hcur] at h; simp at h
        · rw [if_neg hcur] at h
          simp only [List.mem_singleton] at h
          subst h
          rcases hc' with hlen | ⟨p, hpS, hpe⟩
          · refine Or.inl ?_
            simp only [List.length_append, List.length_cons, List.length_nil]
            omega
          · exact Or.inr ⟨p, hpS, by rw [hpe]⟩
    · by_cases hover : maxc < (cf ++ s).length
      · have hstep : sentenceStep maxc (frags, cf) s =
            ((if cf = [] then frags else frags ++ [strip cf]), s) := by
          simp only [sentenceStep, if_neg hlong, if_pos hover]
        rw [hstep]
        refine ih _ _ hSs ?_ (by omega)
        intro f hfm
        by_cases hcf : cf = []
        · rw [if_pos hcf] at hfm; exact hf f hfm
        · rw [if_neg hcf] at hfm
          rcases List.mem_append.mp hfm with h | h
          · exact hf f h
          · simp only [List.mem_singleton] at h
            subst h
            exact Or.inl (le_trans (strip_length_le cf) hc)
      · have hstep : sentenceStep maxc (frags, cf) s =
            (frags, strip (cf ++ ' ' :: s)) := by
          simp only [sentenceStep, if_neg hlong, if_neg hover]
        rw [hstep]
        refine ih _ _ hSs hf ?_
        have h1 := strip_length_le (cf ++ ' ' :: s)
        simp only [List.length_append, List.length_cons] at h1 hover
        omega

theorem paraFold_bound (maxc : Nat) (S : List Frag) :
    ∀ (paras frags : List Frag) (cf : Frag),
      (∀ p ∈ paras, ¬ p.length ≤ maxc →
        ∀ s ∈ sentencesOf p, maxc < s.length → ∀ q ∈ splitOnChar ',' s, q ∈ S) →
      (∀ f ∈ frags, f.length ≤ maxc + 1 ∨ ∃ p ∈ S, f = strip p ++ ['.']) →
      cf.length ≤ maxc + 1 →
      (∀ f ∈ (paras.foldl (paraStep maxc) (frags, cf)).1,
          f.length ≤ maxc + 1 ∨ ∃ p ∈ S, f = strip p ++ ['.']) ∧
        (paras.foldl (paraStep maxc) (frags, cf)).2.length ≤ maxc + 1 := by
  intro paras
  induction paras with
  | nil => intro frags cf _ hf hc; exact ⟨hf, hc⟩
  | cons p ps ih =>
    intro frags cf hS hf hc
    have hSp := hS p (by simp)
    have hSs : ∀ x ∈ ps, ¬ x.length ≤ maxc →
        ∀ s ∈ sentencesOf x, maxc < s.length → ∀ q ∈ splitOnChar ',' s, q ∈ S :=
      fun x hx => hS x (by simp [hx])
    rw [List.foldl_cons]
    by_cases hshort : p.length ≤ maxc
    · have hstep : paraStep maxc (frags, cf) p = (frags ++ [p], cf) := by
        simp only [paraStep, if_pos hshort]
      rw [hstep]
      refine ih _ _ hSs ?_ hc
      intro f hfm
      rcases List.mem_append.mp hfm with h | h
      · exact hf f h
      · simp only [List.mem_singleton] at h
        subst h
        exact Or.inl (by omega)
    · obtain ⟨hf', hc'⟩ := sentenceFold_bound maxc S (sentencesOf p) frags cf
        (hSp hshort) hf hc
      have hstep : paraStep maxc (frags, cf) p =
          if ((sentencesOf p).foldl (sentenceStep maxc) (frags, cf)).2 = []
          then (sentencesOf p).foldl (sentenceStep maxc) (frags, cf)
          else (((sentencesOf p).foldl (sentenceStep maxc) (frags, cf)).1 ++
              [((sentencesOf p).foldl (sentenceStep maxc) (frags, cf)).2], []) := by
        simp only [paraStep, if_neg hshort]
      rw [hstep]
      by_cases h2 : ((sentencesOf p).foldl (sentenceStep maxc) (frags, cf)).2 = []
      · rw [if_pos h2]
        have heta : (sentencesOf p).foldl (sentenceStep maxc) (frags, cf) =
            (((sentencesOf p).foldl (sentenceStep maxc) (frags, cf)).1,
              ((sentencesOf p).foldl (sentenceStep maxc) (frags, cf)).2) := rfl
        rw [heta]
        exact ih _ _ hSs hf' hc'
      · rw [if_neg h2]
        refine ih _ _ hSs ?_ (by simp)
        intro f hfm
        rcases List.mem_append.mp hfm with h | h
        · exact hf' f h
        · simp only [List.mem_singleton] at h
          subst h
          exact Or.inl hc'

theorem mem_clauseParts {text : List Char} {maxc : Nat} {p s q : Frag}
    (hp : p ∈ paragraphsOf text) (hlong : ¬ p.length ≤ maxc)
    (hs : s ∈ sentencesOf p) (hsl : maxc < s.length)
    (hq : q ∈ splitOnChar ',' s) : q ∈ clauseParts text maxc := by
  unfold clauseParts
  rw [mem_catMap]
  refine ⟨p, hp, ?_⟩
  rw [if_neg hlong, mem_catMap]
  exact ⟨s, hs, by rw [if_pos hsl]; exact hq⟩

/-! ## Short-paragraph behaviour (towards claim C7) -/

theorem paraFold_short (maxc : Nat) :
    ∀ (paras frags : List Frag) (cf : Frag), (∀ p ∈ paras, p.length ≤ maxc) →
      paras.foldl (paraStep maxc) (frags, cf) = (frags ++ paras, cf) := by
  intro paras
  induction paras with
  | nil => intro frags cf _; simp
  | cons p ps ih =>
    intro frags cf h
    rw [List.foldl_cons]
    have hstep : paraStep maxc (frags, cf) p = (frags ++ [p], cf) := by
      simp only [paraStep, if_pos (h p (by simp))]
    rw [hstep, ih _ _ (fun x hx => h x (by simp [hx]))]
    simp

/-! ## Claim theorems -/

/-- Claim C1, counterexample: for the input text `"abcd, efgh, xyzw"` and
bound `L = 10`, the splitter returns the fragment `"abcd, efgh."`, whose
length 11 exceeds the bound, even though that fragment is not a single
atomic piece of the input (it is not a paragraph, not a sentence, and not a
stripped comma-clause): the comma-packing loop checks the bound before
appending the terminal period, so a packed fragment can end up one
character over the bound. -/
theorem c1_counterexample :
    "abcd, efgh.".toList ∈ split_text_for_tts "abcd, efgh, xyzw".toList 10 ∧
      10 < "abcd, efgh.".toList.length ∧
      "abcd, efgh.".toList ∉ atomicPieces "abcd, efgh, xyzw".toList := by
  decide

/-- Claim C1, amended: for every input text and bound `L`, every fragment
returned by `split_text_for_tts` either has content length at most `L + 1`
(the splitter appends a terminal period, or joins with a space, after
checking the bound without that extra character), or is a single atomic
comma-clause of an oversized sentence, whitespace-stripped with a terminal
period appended — never truncated and never dropped. -/
theorem c1_fragment_length_bound (text : List Char) (maxc : Nat) (f : Frag)
    (hf : f ∈ split_text_for_tts text maxc) :
    f.length ≤ maxc + 1 ∨ ∃ p ∈ clauseParts text maxc, f = strip p ++ ['.'] := by
  obtain ⟨h1, h2⟩ := paraFold_bound maxc (clauseParts text maxc) (paragraphsOf text) [] []
    (fun p hp hlong s hs hsl q hq => mem_clauseParts hp hlong hs hsl hq)
    (by simp) (by simp)
  simp only [split_text_for_tts] at hf
  by_cases hz : ((paragraphsOf text).foldl (paraStep maxc) ([], [])).2 = []
  · rw [if_pos hz] at hf
    exact h1 f hf
  · rw [if_neg hz] at hf
    rcases List.mem_append.mp hf with h | h
    · exact h1 f h
    · simp only [List.mem_singleton] at h
      subst h
      exact Or.inl h2

/-- Witness for `c1_fragment_length_bound` at the concrete input of the
counterexample: the oversized fragment `"abcd, efgh."` satisfies the
amended bound `L + 1 = 11`. -/
theorem c1_fragment_length_bound_witness :
    ("abcd, efgh.".toList ∈ split_text_for_tts "abcd, efgh, xyzw".toList 10) ∧
      ("abcd, efgh.".toList.length ≤ 10 + 1 ∨
        ∃ p ∈ clauseParts "abcd, efgh, xyzw".toList 10,
          "abcd, efgh.".toList = strip p ++ ['.']) :=
  ⟨by decide, c1_fragment_length_bound _ 10 _ (by decide)⟩

/-- Claim C2, counterexample: for the input `"Ab cd. efgh ijkl mnopq."` and
bound 10, the word sequence of the concatenated fragments is
`[efgh, ijkl, mnopq, Ab, cd]`, not the original `[Ab, cd, efgh, ijkl,
mnopq]`: the comma branch appends the oversized sentence's clause
fragments to the output while the earlier short sentence is still buffered
in `current_fragment`, so the buffered sentence is emitted after them. -/
theorem c2_counterexample :
    wordsCat (split_text_for_tts "Ab cd. efgh ijkl mnopq.".toList 10) ≠
      wordsOf "Ab cd. efgh ijkl mnopq.".toList := by
  decide

/-- Claim C2, amended: for every input text in which no oversized paragraph
contains a sentence longer than the bound (so the comma branch is never
taken), concatenating the fragments in the order returned reconstructs the
original text's word sequence exactly — same words, same order, no
omissions.  (When an oversized sentence does occur, its clause fragments
are emitted ahead of buffered earlier sentences, reordering — but not
losing — the words, as the counterexample shows.) -/
theorem c2_words_reconstruction (text : List Char) (maxc : Nat)
    (h : ∀ p ∈ paragraphsOf text, maxc < p.length →
      ∀ s ∈ sentencesOf p, s.length ≤ maxc) :
    wordsCat (split_text_for_tts text maxc) = wordsOf text := by
  obtain ⟨h1, h2⟩ := paraFold_words maxc (paragraphsOf text) [] h
  simp only [split_text_for_tts]
  rw [if_pos h1, h2, wordsCat_paragraphsOf]
  rfl

/-- Witness for `c2_words_reconstruction` on a two-sentence oversized
paragraph that is split into two fragments. -/
theorem c2_words_reconstruction_witness :
    (∀ p ∈ paragraphsOf "Ab cd ef. Gh ij kl.".toList, 10 < p.length →
        ∀ s ∈ sentencesOf p, s.length ≤ 10) ∧
      wordsCat (split_text_for_tts "Ab cd ef. Gh ij kl.".toList 10) =
        wordsOf "Ab cd ef. Gh ij kl.".toList :=
  ⟨by decide, c2_words_reconstruction _ 10 (by decide)⟩

/-- Claim C7, counterexample: the splitter has no `"//"` scene separator.
On the spec's example input `"Hello there. // Goodbye now."` (with default
bound 250) it returns the whole line as a single unit, not the two units
`["Hello there.", "Goodbye now."]` the claim requires. -/
theorem c7_counterexample :
    split_text_for_tts "Hello there. // Goodbye now.".toList 250 =
        ["Hello there. // Goodbye now.".toList] ∧
      ["Hello there. // Goodbye now.".toList] ≠
        ["Hello there.".toList, "Goodbye now.".toList] := by
  decide

/-- Claim C7, amended: the explicit scene separator is the newline
character: whenever every non-empty, whitespace-trimmed segment between
newlines fits the bound, the splitter emits exactly one unit per such
segment, equal to that trimmed segment, in order (empty and
whitespace-only segments are discarded).  In particular
`"Hello there.\nGoodbye now."` yields `["Hello there.", "Goodbye now."]`
(see the witness). -/
theorem c7_newline_scene_units (text : List Char) (maxc : Nat)
    (h : ∀ p ∈ paragraphsOf text, p.length ≤ maxc) :
    split_text_for_tts text maxc = paragraphsOf text := by
  simp only [split_text_for_tts]
  rw [paraFold_short maxc (paragraphsOf text) [] [] h]
  simp

/-- Witness for `c7_newline_scene_units`: the newline variant of the spec's
example yields exactly the two expected units. -/
theorem c7_newline_scene_units_witness :
    (∀ p ∈ paragraphsOf ("Hello there.\nGoodbye now.").toList, p.length ≤ 250) ∧
      split_text_for_tts ("Hello there.\nGoodbye now.").toList 250 =
        ["Hello there.".toList, "Goodbye now.".toList] :=
  ⟨by decide, (c7_newline_scene_units _ 250 (by decide)).trans (by decide)⟩

/-! ## The synthesis client: events, artifacts and take letters -/

theorem foldl_append_catMap (f : α → List β) :
    ∀ (l : List α) (acc : List β),
      l.foldl (fun a x => a ++ f x) acc = acc ++ catMap f l := by
  intro l
  induction l with
  | nil => intro acc; simp [catMap]
  | cons a as ih => intro acc; rw [List.foldl_cons, ih, catMap, List.append_assoc]

theorem generate_events_eq (svc : Nat → CallOutcome) (text : List Char)
    (scene frg retries : Nat) :
    generate_events svc text scene frg retries =
      catMap (attemptEvents svc text scene frg) (List.range (retries + 1)) := by
  unfold generate_events
  rw [foldl_append_catMap, List.nil_append]

theorem filterMap_catMap (g : β → Option γ) (f : α → List β) :
    ∀ l : List α, (catMap f l).filterMap g = catMap (fun a => (f a).filterMap g) l := by
  intro l
  induction l with
  | nil => rfl
  | cons a as ih => rw [catMap, List.filterMap_append, ih, catMap]

theorem attemptEvents_emit (svc : Nat → CallOutcome) (text : List Char)
    (scene frg attempt : Nat) :
    (attemptEvents svc text scene frg attempt).filterMap emitOf =
      (successArtifact svc text scene frg attempt).toList := by
  unfold attemptEvents successArtifact
  cases svc attempt with
  | resp code content =>
    by_cases h : code = 200
    · simp [h, emitOf]
    · simp [h, emitOf]
  | exn => simp [emitOf]

theorem catMap_toList_filterMap (g : α → Option γ) :
    ∀ l : List α, catMap (fun a => (g a).toList) l = l.filterMap g := by
  intro l
  induction l with
  | nil => rfl
  | cons a as ih =>
    rw [catMap, List.filterMap_cons]
    cases g a with
    | none => simpa using ih
    | some b => simpa using ih

theorem generate_eq_filterMap (svc : Nat → CallOutcome) (text : List Char)
    (scene frg retries : Nat) :
    generate_audio_with_retries svc text scene frg retries =
      (List.range (retries + 1)).filterMap (successArtifact svc text scene frg) := by
  unfold generate_audio_with_retries
  rw [generate_events_eq, filterMap_catMap,
    ← catMap_toList_filterMap (successArtifact svc text scene frg)]
  congr 1
  funext a
  exact attemptEvents_emit svc text scene frg a

theorem getD_append_mid (xs zs : List α) (y d : α) :
    (xs ++ y :: zs).getD xs.length d = y := by
  rw [List.getD_eq_getElem?_getD, List.getElem?_append_right (Nat.le_refl _)]
  simp

theorem filenameFor_shape (scene frg a : Nat) :
    filenameFor scene frg a =
      ("escena".toList ++ Nat.toDigits 10 scene ++ "_parte".toList ++
          Nat.toDigits 10 frg) ++ letters.getD a '?' :: ".mp3".toList := by
  unfold filenameFor
  simp [List.append_assoc]

theorem takeLetter_shape (content : List Nat) (text : List Char) (scene : Nat)
    (pre : List Char) (c : Char) :
    takeLetterOf ⟨content, pre ++ c :: ".mp3".toList, text, scene⟩ = c := by
  unfold takeLetterOf
  have h4 : (".mp3".toList).length = 4 := by decide
  have hlen : (pre ++ c :: ".mp3".toList).length = pre.length + 5 := by
    simp only [List.length_append, List.length_cons, h4]
  rw [hlen, Nat.add_sub_cancel]
  exact getD_append_mid pre (".mp3".toList) c '?'

theorem takeLetterOf_filenameFor (content : List Nat) (text : List Char)
    (scene frg a : Nat) :
    takeLetterOf ⟨content, filenameFor scene frg a, text, scene⟩ =
      letters.getD a '?' := by
  rw [filenameFor_shape]
  exact takeLetter_shape content text scene _ _

theorem gen_letters (svc : Nat → CallOutcome) (text : List Char) (scene frg : Nat) :
    ∀ l : List Nat,
      (l.filterMap (successArtifact svc text scene frg)).map takeLetterOf =
        (l.filter (fun a => !isFailB (svc a))).map (fun a => letters.getD a '?') := by
  intro l
  induction l with
  | nil => rfl
  | cons a as ih =>
    cases hsvc : svc a with
    | resp code content =>
      by_cases hcode : code = 200
      · simp [List.filterMap_cons, List.filter_cons, successArtifact, isFailB, hsvc,
          hcode, ih, takeLetterOf_filenameFor]
      · simp [List.filterMap_cons, List.filter_cons, successArtifact, isFailB, hsvc,
          hcode, ih]
    | exn =>
      simp [List.filterMap_cons, List.filter_cons, successArtifact, isFailB, hsvc, ih]

theorem generate_scene_tag (svc : Nat → CallOutcome) (text : List Char)
    (scene frg retries : Nat) :
    ∀ r ∈ generate_audio_with_retries svc text scene frg retries, r.scene = scene := by
  intro r hr
  rw [generate_eq_filterMap] at hr
  obtain ⟨a, _, ha⟩ := List.mem_filterMap.mp hr
  cases hsvc : svc a with
  | resp code content =>
    simp only [successArtifact, hsvc] at ha
    by_cases hcode : code = 200
    · rw [if_pos hcode] at ha
      cases ha
      rfl
    · rw [if_neg hcode] at ha
      exact absurd ha (by simp)
  | exn =>
    simp only [successArtifact, hsvc] at ha
    exact absurd ha (by simp)

theorem runFrags_scene_tag (svcU : Nat → Nat → CallOutcome) (scene : Nat) :
    ∀ (fr : List Frag) (j : Nat), ∀ r ∈ runFrags svcU scene j fr, r.scene = scene := by
  intro fr
  induction fr with
  | nil => intro j r hr; simp [runFrags] at hr
  | cons f rest ih =>
    intro j r hr
    rw [runFrags] at hr
    rcases List.mem_append.mp hr with h | h
    · exact generate_scene_tag _ _ _ _ _ r h
    · exact ih (j + 1) r h

theorem runScenes_scene_ge (svc : Nat → Nat → Nat → CallOutcome) (maxc : Nat) :
    ∀ (scenes : List (List Char)) (m : Nat),
      ∀ r ∈ runScenes svc maxc m scenes, m ≤ r.scene := by
  intro scenes
  induction scenes with
  | nil => intro m r hr; simp [runScenes] at hr
  | cons s rest ih =>
    intro m r hr
    rw [runScenes] at hr
    rcases List.mem_append.mp hr with h | h
    · rw [runFrags_scene_tag _ _ _ _ r h]
    · exact Nat.le_of_succ_le (ih (m + 1) r h)

theorem runScenes_scene_filter (svcS : Nat → Nat → Nat → CallOutcome)
    (maxc n : Nat) (s : List Char) (rest : List (List Char)) :
    (runScenes svcS maxc n (s :: rest)).filter (fun r => r.scene == n) =
      runFrags (svcS n) n 1 (split_text_for_tts s maxc) := by
  rw [runScenes, List.filter_append]
  have h1 : (runFrags (svcS n) n 1 (split_text_for_tts s maxc)).filter
      (fun r => r.scene == n) = runFrags (svcS n) n 1 (split_text_for_tts s maxc) :=
    List.filter_eq_self.mpr fun r hr => by
      simp [runFrags_scene_tag _ _ _ _ r hr]
  have h2 : (runScenes svcS maxc (n + 1) rest).filter (fun r => r.scene == n) = [] :=
    List.filter_eq_nil_iff.mpr fun r hr => by
      have := runScenes_scene_ge svcS maxc rest (n + 1) r hr
      simp only [beq_iff_eq]
      omega
  rw [h1, h2, List.append_nil]

/-! ## Block structure of the event stream (towards claim C8) -/

theorem catMap_blocks_sleep {f : Nat → List Ev}
    (hgood : ∀ a, (∃ r, f a = [.emit r, .sleep 55]) ∨
      (∃ x c, f a = [.warn x c]) ∨ (∃ x, f a = [.err x])) :
    ∀ (l : List Nat) (i q : Nat),
      (catMap f l)[i]? = some (.sleep q) →
      q = 55 ∧ ∃ j r, i = j + 1 ∧ (catMap f l)[j]? = some (.emit r) := by
  intro l
  induction l with
  | nil => intro i q h; simp [catMap] at h
  | cons a as ih =>
    intro i q h
    rcases hgood a with ⟨r, hr⟩ | ⟨x, c, hr⟩ | ⟨x, hr⟩
    · rw [catMap, hr] at h
      rw [catMap, hr]
      match i, h with
      | 0, h => simp at h
      | 1, h =>
        simp only [List.cons_append, List.nil_append, List.getElem?_cons_succ,
          List.getElem?_cons_zero, Option.some.injEq] at h
        refine ⟨by cases h; rfl, 0, r, rfl, by simp⟩
      | (k + 2), h =>
        simp only [List.cons_append, List.nil_append, List.getElem?_cons_succ] at h
        obtain ⟨hq, j, r', hj, hget⟩ := ih k q h
        exact ⟨hq, j + 2, r', by omega, by
          simp only [List.cons_append, List.nil_append, List.getElem?_cons_succ]
          exact hget⟩
    · rw [catMap, hr] at h
      rw [catMap, hr]
      match i, h with
      | 0, h => simp at h
      | (k + 1), h =>
        simp only [List.cons_append, List.nil_append, List.getElem?_cons_succ] at h
        obtain ⟨hq, j, r', hj, hget⟩ := ih k q h
        exact ⟨hq, j + 1, r', by omega, by
          simp only [List.cons_append, List.nil_append, List.getElem?_cons_succ]
          exact hget⟩
    · rw [catMap, hr] at h
      rw [catMap, hr]
      match i, h with
      | 0, h => simp at h
      | (k + 1), h =>
        simp only [List.cons_append, List.nil_append, List.getElem?_cons_succ] at h
        obtain ⟨hq, j, r', hj, hget⟩ := ih k q h
        exact ⟨hq, j + 1, r', by omega, by
          simp only [List.cons_append, List.nil_append, List.getElem?_cons_succ]
          exact hget⟩

theorem catMap_blocks_emit {f : Nat → List Ev}
    (hgood : ∀ a, (∃ r, f a = [.emit r, .sleep 55]) ∨
      (∃ x c, f a = [.warn x c]) ∨ (∃ x, f a = [.err x])) :
    ∀ (l : List Nat) (i : Nat) (r : AudioResult),
      (catMap f l)[i]? = some (.emit r) →
      (catMap f l)[i + 1]? = some (.sleep 55) := by
  intro l
  induction l with
  | nil => intro i r h; simp [catMap] at h
  | cons a as ih =>
    intro i r h
    rcases hgood a with ⟨r0, hr⟩ | ⟨x, c, hr⟩ | ⟨x, hr⟩
    · rw [catMap, hr] at h
      rw [catMap, hr]
      match i, h with
      | 0, h => simp
      | 1, h => simp at h
      | (k + 2), h =>
        simp only [List.cons_append, List.nil_append, List.getElem?_cons_succ] at h
        simp only [List.cons_append, List.nil_append, List.getElem?_cons_succ]
        exact ih k r h
    · rw [catMap, hr] at h
      rw [catMap, hr]
      match i, h with
      | 0, h => simp at h
      | (k + 1), h =>
        simp only [List.cons_append, List.nil_append, List.getElem?_cons_succ] at h
        simp only [List.cons_append, List.nil_append, List.getElem?_cons_succ]
        exact ih k r h
    · rw [catMap, hr] at h
      rw [catMap, hr]
      match i, h with
      | 0, h => simp at h
      | (k + 1), h =>
        simp only [List.cons_append, List.nil_append, List.getElem?_cons_succ] at h
        simp only [List.cons_append, List.nil_append, List.getElem?_cons_succ]
        exact ih k r h

theorem attemptEvents_good (svc : Nat → CallOutcome) (text : List Char)
    (scene frg : Nat) : ∀ a,
      (∃ r, attemptEvents svc text scene frg a = [.emit r, .sleep 55]) ∨
      (∃ x c, attemptEvents svc text scene frg a = [.warn x c]) ∨
      (∃ x, attemptEvents svc text scene frg a = [.err x]) := by
  intro a
  unfold attemptEvents
  cases svc a with
  | resp code content =>
    by_cases h : code = 200
    · exact Or.inl ⟨⟨content, filenameFor scene frg a, text, scene⟩, by simp [h]⟩
    · exact Or.inr (Or.inl ⟨a + 1, code, by simp [h]⟩)
  | exn => exact Or.inr (Or.inr ⟨a + 1, by simp⟩)

/-- Claim C3 (confirmed): the take letter of an artifact follows the attempt
index, not the count of successes so far: when the service succeeds on
attempts 1 and 3 (indices 0 and 2) and fails attempt 2, the unit's returned
collection is exactly the two artifacts of attempts 1 and 3, tagged with
takes a and c, and no returned artifact is tagged b. -/
theorem c3_take_letters_follow_attempts (svc : Nat → CallOutcome)
    (text : List Char) (scene frg : Nat) (b0 b2 : List Nat)
    (h0 : svc 0 = .resp 200 b0) (h1 : isFailB (svc 1) = true)
    (h2 : svc 2 = .resp 200 b2) :
    generate_audio_with_retries svc text scene frg 2 =
        [⟨b0, filenameFor scene frg 0, text, scene⟩,
          ⟨b2, filenameFor scene frg 2, text, scene⟩] ∧
      takeLetterOf ⟨b0, filenameFor scene frg 0, text, scene⟩ = 'a' ∧
      takeLetterOf ⟨b2, filenameFor scene frg 2, text, scene⟩ = 'c' ∧
      ∀ r ∈ generate_audio_with_retries svc text scene frg 2,
        takeLetterOf r ≠ 'b' := by
  have hrange : List.range (2 + 1) = [0, 1, 2] := by decide
  have hres : generate_audio_with_retries svc text scene frg 2 =
      [⟨b0, filenameFor scene frg 0, text, scene⟩,
        ⟨b2, filenameFor scene frg 2, text, scene⟩] := by
    rw [generate_eq_filterMap, hrange]
    cases hsvc1 : svc 1 with
    | resp code content =>
      have hcode : ¬ code = 200 := by
        simp [isFailB, hsvc1] at h1
        exact h1
      simp [List.filterMap_cons, successArtifact, h0, hsvc1, h2, hcode]
    | exn =>
      simp [List.filterMap_cons, successArtifact, h0, hsvc1, h2]
  refine ⟨hres, ?_, ?_, ?_⟩
  · rw [takeLetterOf_filenameFor]
    decide
  · rw [takeLetterOf_filenameFor]
    decide
  · intro r hr
    rw [hres] at hr
    simp only [List.mem_cons, List.mem_singleton, List.not_mem_nil, or_false] at hr
    rcases hr with rfl | rfl <;> rw [takeLetterOf_filenameFor] <;> decide

/-- Witness for `c3_take_letters_follow_attempts` at the concrete service
`svcAC`. -/
theorem c3_take_letters_follow_attempts_witness :
    (svcAC 0 = .resp 200 [1] ∧ isFailB (svcAC 1) = true ∧
        svcAC 2 = .resp 200 [3]) ∧
      (generate_audio_with_retries svcAC "ho".toList 1 1 2 =
          [⟨[1], filenameFor 1 1 0, "ho".toList, 1⟩,
            ⟨[3], filenameFor 1 1 2, "ho".toList, 1⟩] ∧
        takeLetterOf ⟨[1], filenameFor 1 1 0, "ho".toList, 1⟩ = 'a' ∧
        takeLetterOf ⟨[3], filenameFor 1 1 2, "ho".toList, 1⟩ = 'c' ∧
        ∀ r ∈ generate_audio_with_retries svcAC "ho".toList 1 1 2,
          takeLetterOf r ≠ 'b') :=
  ⟨⟨by decide, by decide, by decide⟩,
    c3_take_letters_follow_attempts svcAC "ho".toList 1 1 [1] [3]
      (by decide) (by decide) (by decide)⟩

/-- Claim C6 (confirmed): a failing attempt (non-200 status or exception)
yields no artifact and surfaces as exactly one warning/error event; the
function never escapes early — the returned collection is the filter-map of
the success artifacts over every attempt in the budget — and the artifacts
of one scene are exactly those produced by its own processing, unaffected
by failures elsewhere in the batch. -/
theorem c6_failure_is_nonfatal (svc : Nat → CallOutcome) (text : List Char)
    (scene frg retries attempt : Nat)
    (ha : attempt < retries + 1) (hf : isFailB (svc attempt) = true) :
    ((attemptEvents svc text scene frg attempt).filterMap emitOf = [] ∧
        ((∃ code, attemptEvents svc text scene frg attempt =
            [.warn (attempt + 1) code]) ∨
          attemptEvents svc text scene frg attempt = [.err (attempt + 1)])) ∧
      generate_audio_with_retries svc text scene frg retries =
        (List.range (retries + 1)).filterMap (successArtifact svc text scene frg) ∧
      ∀ (svcS : Nat → Nat → Nat → CallOutcome) (maxc n : Nat) (s : List Char)
        (rest : List (List Char)),
        (runScenes svcS maxc n (s :: rest)).filter (fun r => r.scene == n) =
          runFrags (svcS n) n 1 (split_text_for_tts s maxc) := by
  refine ⟨⟨?_, ?_⟩, generate_eq_filterMap svc text scene frg retries,
    fun svcS maxc n s rest => runScenes_scene_filter svcS maxc n s rest⟩
  · rw [attemptEvents_emit]
    cases hsvc : svc attempt with
    | resp code content =>
      have hcode : ¬ code = 200 := by
        simp [isFailB, hsvc] at hf
        exact hf
      simp [successArtifact, hsvc, hcode]
    | exn => simp [successArtifact, hsvc]
  · cases hsvc : svc attempt with
    | resp code content =>
      have hcode : ¬ code = 200 := by
        simp [isFailB, hsvc] at hf
        exact hf
      exact Or.inl ⟨code, by simp [attemptEvents, hsvc, hcode]⟩
    | exn => exact Or.inr (by simp [attemptEvents, hsvc])

/-- Witness for `c6_failure_is_nonfatal` at the concrete service `svcAC`
whose second attempt fails. -/
theorem c6_failure_is_nonfatal_witness :
    (1 < 2 + 1 ∧ isFailB (svcAC 1) = true) ∧
      (((attemptEvents svcAC "ho".toList 1 1 1).filterMap emitOf = [] ∧
          ((∃ code, attemptEvents svcAC "ho".toList 1 1 1 =
              [.warn (1 + 1) code]) ∨
            attemptEvents svcAC "ho".toList 1 1 1 = [.err (1 + 1)])) ∧
        generate_audio_with_retries svcAC "ho".toList 1 1 2 =
          (List.range (2 + 1)).filterMap (successArtifact svcAC "ho".toList 1 1) ∧
        ∀ (svcS : Nat → Nat → Nat → CallOutcome) (maxc n : Nat) (s : List Char)
          (rest : List (List Char)),
          (runScenes svcS maxc n (s :: rest)).filter (fun r => r.scene == n) =
            runFrags (svcS n) n 1 (split_text_for_tts s maxc)) :=
  ⟨⟨by decide, by decide⟩,
    c6_failure_is_nonfatal svcAC "ho".toList 1 1 2 1 (by decide) (by decide)⟩

/-- Claim C8 (confirmed): in the synthesis client's event stream a pacing
sleep of 5.5 time-units (recorded as 55 tenths) occurs exactly immediately
after each successful attempt's artifact: every sleep is 5.5 units and is
directly preceded by an emitted artifact, and every emitted artifact is
directly followed by such a sleep; failed attempts (warnings/errors) are
never followed by a sleep. -/
theorem c8_pacing_after_success_only (svc : Nat → CallOutcome)
    (text : List Char) (scene frg retries : Nat) :
    (∀ i q, (generate_events svc text scene frg retries)[i]? =
        some (.sleep q) →
      q = 55 ∧ ∃ j r, i = j + 1 ∧
        (generate_events svc text scene frg retries)[j]? = some (.emit r)) ∧
      ∀ i r, (generate_events svc text scene frg retries)[i]? =
          some (.emit r) →
        (generate_events svc text scene frg retries)[i + 1]? =
          some (.sleep 55) := by
  rw [generate_events_eq]
  exact ⟨fun i q h =>
      catMap_blocks_sleep (attemptEvents_good svc text scene frg) _ i q h,
    fun i r h =>
      catMap_blocks_emit (attemptEvents_good svc text scene frg) _ i r h⟩

/-- Witness for `c8_pacing_after_success_only`: with an all-success service
and a single attempt, the event at index 1 is the 5.5-unit sleep and it is
preceded by the emitted artifact at index 0. -/
theorem c8_pacing_after_success_only_witness :
    ((generate_events svcAC "ho".toList 1 1 0)[1]? = some (.sleep 55)) ∧
      (55 = 55 ∧ ∃ j r, 1 = j + 1 ∧
        (generate_events svcAC "ho".toList 1 1 0)[j]? = some (.emit r)) :=
  ⟨by decide,
    (c8_pacing_after_success_only svcAC "ho".toList 1 1 0).1 1 55 (by decide)⟩

/-- Claim C9 (confirmed): with the default attempt budget of 3 (retries = 2),
the take letters of the artifacts returned for a unit are pairwise distinct
and all drawn from the letters a, b, c: at most one artifact per
(unit, take) pair, with fewer than three present when attempts fail. -/
theorem c9_at_most_one_artifact_per_take (svc : Nat → CallOutcome)
    (text : List Char) (scene frg : Nat) :
    ((generate_audio_with_retries svc text scene frg 2).map takeLetterOf).Nodup ∧
      ∀ c ∈ (generate_audio_with_retries svc text scene frg 2).map takeLetterOf,
        c ∈ letters := by
  rw [generate_eq_filterMap, gen_letters]
  have hr : List.range (2 + 1) = [0, 1, 2] := by decide
  rw [hr]
  constructor
  · refine List.Nodup.map_on ?_ (List.Nodup.filter _ (by decide))
    intro x hx y hy hxy
    have hx' := (List.mem_filter.mp hx).1
    have hy' := (List.mem_filter.mp hy).1
    simp only [List.mem_cons, List.mem_singleton, List.not_mem_nil, or_false] at hx' hy'
    rcases hx' with rfl | rfl | rfl <;> rcases hy' with rfl | rfl | rfl <;>
      first
        | rfl
        | exact absurd hxy (by decide)
  · intro c hc
    obtain ⟨a, ha, rfl⟩ := List.mem_map.mp hc
    have ha' := (List.mem_filter.mp ha).1
    simp only [List.mem_cons, List.mem_singleton, List.not_mem_nil, or_false] at ha'
    rcases ha' with rfl | rfl | rfl <;> decide

/-- Helper: whenever the archive builder succeeds, the returned mapping has
exactly the keys a, b, c in that fixed order (a take with no artifacts gets
an empty archive rather than a missing key). -/
theorem create_zip_keys (files : List AudioResult) (z : List (Char × List Entry))
    (h : create_zip_files_by_version files = some z) :
    z.map Prod.fst = ['a', 'b', 'c'] := by
  unfold create_zip_files_by_version at h
  by_cases hall : files.all (fun a => letters.contains (takeLetterOf a)) = true
  · rw [if_pos hall] at h
    cases h
    rfl
  · rw [if_neg hall] at h
    exact absurd h (by simp)

/-- Claim C4 (confirmed): for a batch of 2 units (scenes 1 and 2, one
fragment each) with 3 successful takes each, the archive builder returns
exactly three archives keyed a, b, c — partitioning the artifacts by take
letter — each containing exactly 2 entries whose paths are the
deterministic per-scene folder paths, listed in ascending unit order. -/
theorem c4_three_archives_two_entries_each (bytes : Nat → Nat → List Nat)
    (t1 t2 : List Char) :
    create_zip_files_by_version
        (generate_audio_with_retries (fun a => .resp 200 (bytes 1 a)) t1 1 1 2 ++
          generate_audio_with_retries (fun a => .resp 200 (bytes 2 a)) t2 2 1 2) =
      some
        [('a', [⟨"escena_".toList ++ Nat.toDigits 10 1 ++ '/' :: filenameFor 1 1 0,
                  bytes 1 0⟩,
                ⟨"escena_".toList ++ Nat.toDigits 10 2 ++ '/' :: filenameFor 2 1 0,
                  bytes 2 0⟩]),
         ('b', [⟨"escena_".toList ++ Nat.toDigits 10 1 ++ '/' :: filenameFor 1 1 1,
                  bytes 1 1⟩,
                ⟨"escena_".toList ++ Nat.toDigits 10 2 ++ '/' :: filenameFor 2 1 1,
                  bytes 2 1⟩]),
         ('c', [⟨"escena_".toList ++ Nat.toDigits 10 1 ++ '/' :: filenameFor 1 1 2,
                  bytes 1 2⟩,
                ⟨"escena_".toList ++ Nat.toDigits 10 2 ++ '/' :: filenameFor 2 1 2,
                  bytes 2 2⟩])] := rfl

/-- Claim C5 (confirmed): on any failure — non-200 status, malformed
response body, or a raised exception — the voice listing returns the empty
mapping, and faced with the empty mapping `main` reports the bad credential
and returns before starting any synthesis. -/
theorem c5_voice_listing_failure_refuses (o : VoicesOutcome)
    (hf : isVoicesFailB o = true) :
    get_available_voices o = [] ∧ main_voice_step o = .errorBadKey := by
  have hempty : get_available_voices o = [] := by
    cases o with
    | resp code body =>
      cases body with
      | none =>
        by_cases hc : code = 200 <;> simp [get_available_voices, hc]
      | some voices =>
        have hcode : ¬ code = 200 := by
          simp [isVoicesFailB] at hf
          exact hf
        simp [get_available_voices, hcode]
    | exn => rfl
  refine ⟨hempty, ?_⟩
  unfold main_voice_step
  rw [hempty]

/-- Witness for `c5_voice_listing_failure_refuses` at a concrete 401
response that still carries a well-formed voice list. -/
theorem c5_voice_listing_failure_refuses_witness :
    (isVoicesFailB (.resp 401 (some [("Rachel".toList, "id1".toList)])) = true) ∧
      (get_available_voices (.resp 401 (some [("Rachel".toList, "id1".toList)])) = [] ∧
        main_voice_step (.resp 401 (some [("Rachel".toList, "id1".toList)])) =
          .errorBadKey) :=
  ⟨by decide, c5_voice_listing_failure_refuses _ (by decide)⟩

/-- Claim C10 (confirmed): the session generation state starts with
`files_generated = false` and empty archive/timestamp fields; an empty
batch never overwrites it; and in every reachable state with
`files_generated = true` the archive mapping is present with exactly the
keys a, b, c and the timestamp is set. -/
theorem c10_session_state_invariant :
    (init_generation.files_generated = false ∧
        init_generation.zip_contents = none ∧ init_generation.timestamp = none) ∧
      (∀ (st : GenState) (ts : List Char), finish_batch st [] ts = st) ∧
      ∀ st, Reachable st → st.files_generated = true →
        ∃ z, st.zip_contents = some z ∧ z.map Prod.fst = ['a', 'b', 'c'] ∧
          ∃ t, st.timestamp = some t := by
  refine ⟨⟨rfl, rfl, rfl⟩, fun st ts => by simp [finish_batch], ?_⟩
  intro st hreach
  induction hreach with
  | init =>
    intro h
    exact absurd h (by simp [init_generation])
  | step st svc maxc scenes ts hst ih =>
    intro h
    by_cases hb : runScenes svc maxc 1 scenes = []
    · simp only [finish_batch, if_pos hb] at h ⊢
      exact ih h
    · simp only [finish_batch, if_neg hb] at h ⊢
      cases hz : create_zip_files_by_version (runScenes svc maxc 1 scenes) with
      | none =>
        rw [hz] at h
        exact ih h
      | some z => exact ⟨z, rfl, create_zip_keys _ _ hz, ts, rfl⟩

/-- Witness for `c10_session_state_invariant` at the state reached after one
successful single-scene batch. -/
theorem c10_session_state_invariant_witness :
    (Reachable (finish_batch init_generation
          (runScenes svcOK 250 1 ["hola".toList]) "ts".toList) ∧
        (finish_batch init_generation
          (runScenes svcOK 250 1 ["hola".toList]) "ts".toList).files_generated = true) ∧
      ∃ z, (finish_batch init_generation
            (runScenes svcOK 250 1 ["hola".toList]) "ts".toList).zip_contents = some z ∧
        z.map Prod.fst = ['a', 'b', 'c'] ∧
        ∃ t, (finish_batch init_generation
            (runScenes svcOK 250 1 ["hola".toList]) "ts".toList).timestamp = some t :=
  ⟨⟨Reachable.step init_generation svcOK 250 ["hola".toList] "ts".toList Reachable.init,
      by decide⟩,
    c10_session_state_invariant.2.2 _
      (Reachable.step init_generation svcOK 250 ["hola".toList] "ts".toList Reachable.init)
      (by decide)⟩

/-- Witness for `c9_at_most_one_artifact_per_take` at the concrete service
`svcAC` (two successful takes, letters a and c). -/
theorem c9_at_most_one_artifact_per_take_witness :
    ((generate_audio_with_retries svcAC "ho".toList 1 1 2).map takeLetterOf).Nodup ∧
      ∀ c ∈ (generate_audio_with_retries svcAC "ho".toList 1 1 2).map takeLetterOf,
        c ∈ letters :=
  c9_at_most_one_artifact_per_take svcAC "ho".toList 1 1

end Eleven
